import Mathlib

/-!
Verification of the ArrayQL in-memory query engine
(`src/core/QueryBuilder.ts`).

The TypeScript `QueryBuilder` class is embedded shallowly:

* field values are a closed tagged union `Value` (undefined, null,
  integer, string, boolean); condition comparison values may in addition
  be arrays (`CondVal`), which is what the `IN` operator consumes;
* records are association lists from field names to values; reading an
  absent field yields `Value.vundef`, exactly as `item[key]` yields
  `undefined` in JavaScript;
* the mutable builder state becomes the structure `QState`, and every
  builder method becomes a function from state to state (plus an error
  component where the source `throw`s);
* `Array.prototype.sort` (stable per the ECMAScript spec) is modelled by
  a stable insertion sort `jsSortList` driven by the source's comparator;
* the aliasing behaviour of `insert`/`update`/`delete` (in-place `push`
  versus rebinding `this.data` to a fresh `map`/`filter` result) is
  modelled by a tiny heap of arrays (`Store`) addressed by reference ids.
-/

namespace ArrayQL

/-- Closed tagged union for primitive JavaScript values stored in records.
`vundef` is `undefined` (also the result of reading an absent field),
`vnull` is `null`. -/
inductive Value where
  | vundef
  | vnull
  | vint (n : Int)
  | vstr (s : String)
  | vbool (b : Bool)
deriving DecidableEq, Repr

/-- A condition's comparison value: a primitive, or an array of
primitives (as consumed by the `IN` operator). -/
inductive CondVal where
  | prim (v : Value)
  | arr (vs : List Value)
deriving DecidableEq, Repr

/-- The `Operator` union type of the source: `'=' | '>' | '<' | '>=' |
'<=' | '!=' | 'IN'`. -/
inductive Operator where
  | eq | gt | lt | ge | le | ne | inOp
deriving DecidableEq, Repr

/-- `Condition<T> = { key, operator, value }`. -/
structure Condition where
  key : String
  operator : Operator
  value : CondVal
deriving DecidableEq, Repr

/-- `SortOption = 'DESC' | 'ASC'`. -/
inductive SortOption where
  | asc | desc
deriving DecidableEq, Repr

/-- `SortConfig<T> = { key, direction }`. -/
structure SortConfig where
  key : String
  direction : SortOption
deriving DecidableEq, Repr

/-- A record: an association list from field names to values (first
binding wins on lookup; the engine never creates duplicate keys). -/
abbrev Rec := List (String × Value)

/-- First-match lookup in a record. -/
def lookupF : Rec → String → Option Value
  | [], _ => none
  | (k, v) :: rest, g => if g = k then some v else lookupF rest g

/-- `item[key]` in JavaScript: the stored value, or `undefined` when the
field is absent. -/
def getField (item : Rec) (k : String) : Value :=
  (lookupF item k).getD Value.vundef

/-- `val == null` (loose equality): true exactly for `null` and
`undefined`. -/
def isNullish : Value → Bool
  | .vundef => true
  | .vnull => true
  | _ => false

/-- JavaScript `ToNumber` on our value universe; `none` is `NaN`. -/
def toNumber : Value → Option Int
  | .vundef => none
  | .vnull => some 0
  | .vint n => some n
  | .vbool b => some (if b then 1 else 0)
  | .vstr s =>
      let t := s.trim
      if t = "" then some 0 else t.toInt?

/-- The ECMAScript abstract relational comparison `a < b` on primitives:
string–string comparisons are lexicographic, every other pair is
compared numerically after `ToNumber`; `none` means the comparison is
undefined (a `NaN` was involved). -/
def jsCmpLt (a b : Value) : Option Bool :=
  match a, b with
  | .vstr x, .vstr y => some (decide (x < y))
  | _, _ =>
      match toNumber a, toNumber b with
      | some m, some n => some (decide (m < n))
      | _, _ => none

/-- String conversion of one array element inside `Array.prototype.toString`
(`null`/`undefined` become the empty string). -/
def elemStr : Value → String
  | .vundef => ""
  | .vnull => ""
  | .vint n => toString n
  | .vstr s => s
  | .vbool b => if b then "true" else "false"

/-- `ToPrimitive` of a condition value: primitives unchanged, arrays
become their comma-joined string. -/
def condValPrim : CondVal → Value
  | .prim v => v
  | .arr vs => .vstr (String.intercalate "," (vs.map elemStr))

/-- `val < w` coerced to boolean (`NaN` comparisons are false). -/
def jsLtB (a b : Value) : Bool := (jsCmpLt a b).getD false

/-- `val <= w` as a boolean: `!(w < val)`, false when `NaN` is involved. -/
def jsLeB (a b : Value) : Bool :=
  match jsCmpLt b a with
  | some r => !r
  | none => false

/-- `evaluate(item, cond)` from the source: fetch `item[cond.key]` and
apply the operator.  `===`/`!==` are strict (an array operand is never
strictly equal to a primitive field value); `IN` requires the comparison
value to be an array and tests membership. -/
def evaluate (item : Rec) (cond : Condition) : Bool :=
  let val := getField item cond.key
  match cond.operator with
  | .eq =>
      match cond.value with
      | .prim w => decide (val = w)
      | .arr _ => false
  | .gt => jsLtB (condValPrim cond.value) val
  | .lt => jsLtB val (condValPrim cond.value)
  | .ge => jsLeB (condValPrim cond.value) val
  | .le => jsLeB val (condValPrim cond.value)
  | .ne =>
      match cond.value with
      | .prim w => !decide (val = w)
      | .arr _ => true
  | .inOp =>
      match cond.value with
      | .prim _ => false
      | .arr vs => decide (val ∈ vs)

/-- The record-level DNF match used verbatim by `value`, `update` and
`delete`: some group is non-empty and all its conditions hold. -/
def matchesGroups (gs : List (List Condition)) (item : Rec) : Bool :=
  gs.any fun g => decide (0 < g.length) && g.all fun c => evaluate item c

/-- `this.conditionGroups.some(group => group.length > 0)`. -/
def hasConditions (gs : List (List Condition)) : Bool :=
  gs.any fun g => decide (0 < g.length)

/-- The matching rule as the specification words it: at least one
condition group is non-empty and every condition in it evaluates true. -/
def specMatches (gs : List (List Condition)) (item : Rec) : Prop :=
  ∃ g ∈ gs, g ≠ [] ∧ ∀ c ∈ g, evaluate item c = true

/-- The builder's mutable query state. -/
structure QState where
  conditionGroups : List (List Condition)
  fields : List String
  sortConfig : Option SortConfig
  limitCount : Option Int
  offsetCount : Int
  distinctField : Option String
deriving DecidableEq, Repr

/-- The state installed by the field initializers of the class. -/
def initQ : QState :=
  { conditionGroups := [[]]
    fields := []
    sortConfig := none
    limitCount := none
    offsetCount := 0
    distinctField := none }

/-- `reset()`: restores every query-state field to its default. -/
def resetState (_st : QState) : QState :=
  { conditionGroups := [[]]
    fields := []
    sortConfig := none
    limitCount := none
    offsetCount := 0
    distinctField := none }

/-- Push a condition onto the last group
(`this.conditionGroups[this.conditionGroups.length - 1]?.push(...)`;
on an empty group list the optional chaining makes this a no-op). -/
def pushLast (c : Condition) : List (List Condition) → List (List Condition)
  | [] => []
  | [g] => [g ++ [c]]
  | g :: gs => g :: pushLast c gs

/-- `where(key, operator, value)`. -/
def whereOp (c : Condition) (st : QState) : QState :=
  { st with conditionGroups := pushLast c st.conditionGroups }

/-- `orWhere(key, operator, value)`: defers to `where` when the state is
the initial one (exactly one group, which is empty), otherwise pushes a
fresh singleton group. -/
def orWhereOp (c : Condition) (st : QState) : QState :=
  if st.conditionGroups.length = 1 ∧ (st.conditionGroups.head?.getD []).length = 0 then
    whereOp c st
  else
    { st with conditionGroups := st.conditionGroups ++ [[c]] }

/-- `select(fields)`: only a non-empty list overwrites the projection. -/
def selectOp (fs : List String) (st : QState) : QState :=
  if fs.length ≠ 0 then { st with fields := fs } else st

/-- `orderBy(key, direction)`. -/
def orderByOp (k : String) (d : SortOption) (st : QState) : QState :=
  { st with sortConfig := some ⟨k, d⟩ }

/-- `distinct(key)`. -/
def distinctOp (k : String) (st : QState) : QState :=
  { st with distinctField := some k }

/-- `limit(count)`: throws on a negative count (`some` error message,
state untouched), otherwise stores the count. -/
def limitRun (count : Int) (st : QState) : QState × Option String :=
  if count < 0 then (st, some "Limit must be non-negative")
  else ({ st with limitCount := some count }, none)

/-- `offset(count)`: throws on a negative count, otherwise stores it. -/
def offsetRun (count : Int) (st : QState) : QState × Option String :=
  if count < 0 then (st, some "Offset must be non-negative")
  else ({ st with offsetCount := count }, none)

/-- `{ ...item, ...updates }`: item's keys keep their position but take
the value from `updates` when present; keys new in `updates` are
appended in order. -/
def mergeRec (item updates : Rec) : Rec :=
  (item.map fun p =>
    match lookupF updates p.1 with
    | some v => (p.1, v)
    | none => p) ++
  updates.filter fun q => (lookupF item q.1).isNone

/-- The argument of `insert`: one record or an array of records. -/
def insertList : Rec ⊕ List Rec → List Rec
  | .inl r => [r]
  | .inr rs => rs

/-- The new array contents produced by `update(updates)`
(`this.data.map(item => matches ? { ...item, ...updates } : item)`). -/
def updateData (gs : List (List Condition)) (updates : Rec) (data : List Rec) : List Rec :=
  data.map fun item =>
    if matchesGroups gs item then mergeRec item updates else item

/-- The new array contents produced by `delete()`
(`this.data.filter(item => !matches)`). -/
def deleteData (gs : List (List Condition)) (data : List Rec) : List Rec :=
  data.filter fun item => !matchesGroups gs item

/-- The source comparator of `sort()`: null/undefined first operand
sorts last (returns 1), second operand null sorts the first operand
first (-1), strictly equal values tie (0); otherwise compare natively
and negate for descending. -/
def sortCmp (key : String) (direction : SortOption) (a b : Rec) : Int :=
  let valA := getField a key
  let valB := getField b key
  if isNullish valA then 1
  else if isNullish valB then -1
  else if valA = valB then 0
  else
    let comparison : Int := if jsLtB valA valB then -1 else 1
    if direction = .asc then comparison else -comparison

/-- Stable insertion of `a` into `l`: `a` is placed before the first
element `b` with `cmp a b ≤ 0`. -/
def jsInsert (cmp : Rec → Rec → Int) (a : Rec) : List Rec → List Rec
  | [] => [a]
  | b :: l => if cmp a b ≤ 0 then a :: b :: l else b :: jsInsert cmp a l

/-- Model of `[...data].sort(cmp)`: a stable sort driven by the
comparator (ECMAScript requires `Array.prototype.sort` to be stable). -/
def jsSortList (cmp : Rec → Rec → Int) : List Rec → List Rec
  | [] => []
  | a :: l => jsInsert cmp a (jsSortList cmp l)

/-- `this.sort(data)`: re-checks the sort config, then sorts a copy. -/
def sortFn (cfg : Option SortConfig) (data : List Rec) : List Rec :=
  match cfg with
  | none => data
  | some c => jsSortList (sortCmp c.key c.direction) data

/-- `data.slice(n)` (a negative start counts from the end). -/
def jsSliceFrom (n : Int) (l : List Rec) : List Rec :=
  if n < 0 then l.drop ((l.length : Int) + n).toNat else l.drop n.toNat

/-- `data.slice(0, m)` (a negative end counts from the end). -/
def jsSliceTo (m : Int) (l : List Rec) : List Rec :=
  if m < 0 then l.take ((l.length : Int) + m).toNat else l.take m.toNat

/-- The DISTINCT filter: `seen` is the set of field values already
observed; a record survives iff its field value is fresh. -/
def dedupLoop (k : String) (seen : List Value) : List Rec → List Rec
  | [] => []
  | item :: rest =>
      let v := getField item k
      if v ∈ seen then dedupLoop k seen rest
      else item :: dedupLoop k (v :: seen) rest

/-- The distinct stage as run by `value()` (fresh empty `Set`). -/
def distinctFilter (k : String) (data : List Rec) : List Rec :=
  dedupLoop k [] data

/-- `selected[field] = v`: overwrite in place when the key exists,
append otherwise. -/
def assignField (sel : Rec) (f : String) (v : Value) : Rec :=
  if (lookupF sel f).isSome then
    sel.map fun p => if p.1 = f then (f, v) else p
  else
    sel ++ [(f, v)]

/-- The projection body of `value()`: start from `{}` and assign
`selected[field] = item[field]` for each listed field (an absent source
field assigns `undefined`, which still creates the key). -/
def projectRec (fields : List String) (item : Rec) : Rec :=
  fields.foldl (fun sel f => assignField sel f (getField item f)) []

/-- `value()`, statement by statement. -/
def valueFn (st : QState) (data : List Rec) : List Rec :=
  let filtered0 := data
  let filtered1 :=
    if hasConditions st.conditionGroups then
      data.filter fun item => matchesGroups st.conditionGroups item
    else filtered0
  let filtered2 :=
    if st.sortConfig.isSome then sortFn st.sortConfig filtered1 else filtered1
  let filtered3 :=
    if st.offsetCount > 0 then jsSliceFrom st.offsetCount filtered2 else filtered2
  let filtered4 :=
    match st.limitCount with
    | some m => jsSliceTo m filtered3
    | none => filtered3
  let filtered5 :=
    match st.distinctField with
    | some k => distinctFilter k filtered4
    | none => filtered4
  if st.fields.length = 0 then filtered5
  else filtered5.map fun item => projectRec st.fields item

/-- The filter stage in isolation. -/
def filterStage (gs : List (List Condition)) (data : List Rec) : List Rec :=
  if hasConditions gs then data.filter (fun item => matchesGroups gs item) else data

/-- The sort stage in isolation. -/
def sortStage (cfg : Option SortConfig) (data : List Rec) : List Rec :=
  match cfg with
  | some c => jsSortList (sortCmp c.key c.direction) data
  | none => data

/-- The offset stage in isolation. -/
def offsetStage (n : Int) (data : List Rec) : List Rec :=
  if n > 0 then jsSliceFrom n data else data

/-- The limit stage in isolation. -/
def limitStage (m : Option Int) (data : List Rec) : List Rec :=
  match m with
  | some v => jsSliceTo v data
  | none => data

/-- The distinct stage in isolation. -/
def distinctStage (k : Option String) (data : List Rec) : List Rec :=
  match k with
  | some f => distinctFilter f data
  | none => data

/-- The projection stage in isolation. -/
def projectStage (fs : List String) (data : List Rec) : List Rec :=
  if fs.length = 0 then data else data.map fun item => projectRec fs item

/-- A heap of arrays addressed by reference ids: models which JavaScript
array object each reference denotes. -/
structure Store where
  heap : List (List Rec)
deriving DecidableEq, Repr

/-- Dereference an array id. -/
def Store.read (s : Store) (r : Nat) : List Rec :=
  s.heap.getD r []

/-- The engine: the reference it holds to its data array
(`this.data`), plus its query state. -/
structure Engine where
  ref : Nat
  st : QState
deriving DecidableEq, Repr

/-- `new QueryBuilder(data)`: stores the caller's array reference as-is
(no defensive copy). -/
def mkEngine (r : Nat) : Engine := ⟨r, initQ⟩

/-- `insert(record)`: `this.data.push(...)` mutates the array object in
place — the heap cell behind the engine's reference is extended, and the
engine keeps pointing at it. -/
def insertE (rec : Rec ⊕ List Rec) (e : Engine) (s : Store) : Engine × Store :=
  (e, ⟨s.heap.set e.ref (s.read e.ref ++ insertList rec)⟩)

/-- `update(updates)`: `this.data = this.data.map(...)` allocates a
fresh array and rebinds `this.data` to it; the original array object is
left untouched.  Query state is reset afterwards. -/
def updateE (updates : Rec) (e : Engine) (s : Store) : Engine × Store :=
  let newArr := updateData e.st.conditionGroups updates (s.read e.ref)
  (⟨s.heap.length, resetState e.st⟩, ⟨s.heap ++ [newArr]⟩)

/-- `delete()`: `this.data = this.data.filter(...)` likewise rebinds to
a fresh array and resets query state. -/
def deleteE (e : Engine) (s : Store) : Engine × Store :=
  let newArr := deleteData e.st.conditionGroups (s.read e.ref)
  (⟨s.heap.length, resetState e.st⟩, ⟨s.heap ++ [newArr]⟩)

/-- Whether a record's sort-field value is null/undefined. -/
def nullKey (key : String) (r : Rec) : Bool :=
  isNullish (getField r key)

/-- The integer sort-field value of a record (junk 0 on non-integers;
only used under the hypothesis that the value is an integer). -/
def kvInt (key : String) (r : Rec) : Int :=
  match getField r key with
  | .vint n => n
  | _ => 0

/-- Whether a record's sort-field value is null/undefined or an
integer (one uniform comparable type). -/
def intOrNullB (key : String) (r : Rec) : Bool :=
  match getField r key with
  | .vundef => true
  | .vnull => true
  | .vint _ => true
  | _ => false

/-- Hypothesis for the sort-reversal analysis: the record's sort-field
value is null/undefined or an integer. -/
def IntOrNull (key : String) (r : Rec) : Prop :=
  intOrNullB key r = true

/-- "May precede" in an ascending sort: non-null before null, null pairs
unconstrained, non-null pairs ordered by their integer values. -/
def Rasc (key : String) (a b : Rec) : Prop :=
  (nullKey key a = false ∧ nullKey key b = true) ∨
  (nullKey key a = true ∧ nullKey key b = true) ∨
  (nullKey key a = false ∧ nullKey key b = false ∧ kvInt key a ≤ kvInt key b)

/-- "May precede" in a descending sort. -/
def Rdesc (key : String) (a b : Rec) : Prop :=
  (nullKey key a = false ∧ nullKey key b = true) ∨
  (nullKey key a = true ∧ nullKey key b = true) ∨
  (nullKey key a = false ∧ nullKey key b = false ∧ kvInt key b ≤ kvInt key a)

/-- The weak "nulls trail" ordering: an element may precede another
unless it is null and the other is not. -/
def Rnull (key : String) (a b : Rec) : Prop :=
  nullKey key a = false ∨ nullKey key b = true

theorem pushLast_ne_nil (c : Condition) (gs : List (List Condition)) (h : gs ≠ []) :
    pushLast c gs ≠ [] := by
  cases gs with
  | nil => exact absurd rfl h
  | cons g tl => cases tl <;> simp [pushLast]

/-- C1: a record matches the full predicate iff at least one condition
group is non-empty and all its conditions evaluate true; an empty group
never matches (prepending one changes nothing); and `update`, `delete`
and the filter stage of `value` all apply this same rule. -/
theorem match_rule_dnf (gs : List (List Condition)) (item : Rec) (u : Rec)
    (data : List Rec) :
    (matchesGroups gs item = true ↔ specMatches gs item)
    ∧ matchesGroups ([] :: gs) item = matchesGroups gs item
    ∧ updateData gs u data
        = data.map (fun it => if matchesGroups gs it then mergeRec it u else it)
    ∧ deleteData gs data = data.filter (fun it => !matchesGroups gs it)
    ∧ (hasConditions gs = true →
        filterStage gs data = data.filter (fun it => matchesGroups gs it)) := by
  refine ⟨?_, ?_, rfl, rfl, fun h => by simp [filterStage, h]⟩
  · simp [matchesGroups, specMatches, List.any_eq_true, Bool.and_eq_true,
      List.all_eq_true, List.length_pos]
  · simp [matchesGroups]

theorem match_rule_dnf_witness :
    hasConditions [[⟨"age", .gt, .prim (.vint 28)⟩]] = true
    ∧ filterStage [[⟨"age", .gt, .prim (.vint 28)⟩]] [[("age", Value.vint 30)]]
        = List.filter (fun it => matchesGroups [[⟨"age", .gt, .prim (.vint 28)⟩]] it)
            [[("age", Value.vint 30)]] :=
  ⟨by decide,
    (match_rule_dnf [[⟨"age", .gt, .prim (.vint 28)⟩]] [] []
      [[("age", Value.vint 30)]]).2.2.2.2 (by decide)⟩

/-- C2: `value()` is exactly the six-stage pipeline
filter → sort → offset → limit → distinct → project, and every
unconfigured optional stage is the identity, so skipping a stage never
reorders the remaining ones. -/
theorem value_pipeline_order (st : QState) (data : List Rec) :
    valueFn st data
      = projectStage st.fields (distinctStage st.distinctField (limitStage st.limitCount
          (offsetStage st.offsetCount (sortStage st.sortConfig
            (filterStage st.conditionGroups data)))))
    ∧ (∀ d, sortStage none d = d)
    ∧ (∀ d, offsetStage 0 d = d)
    ∧ (∀ d, limitStage none d = d)
    ∧ (∀ d, distinctStage none d = d)
    ∧ (∀ d, projectStage [] d = d)
    ∧ (∀ gs d, hasConditions gs = false → filterStage gs d = d) := by
  refine ⟨?_, fun d => rfl, fun d => by simp [offsetStage], fun d => rfl,
    fun d => rfl, fun d => rfl, fun gs d h => by simp [filterStage, h]⟩
  cases hs : st.sortConfig <;> cases hl : st.limitCount <;> cases hd : st.distinctField <;>
    simp [valueFn, filterStage, sortStage, offsetStage, limitStage, distinctStage,
      projectStage, sortFn, hs, hl, hd]

theorem value_pipeline_order_witness :
    hasConditions ([[]] : List (List Condition)) = false
    ∧ filterStage [[]] [[("a", Value.vint 1)]] = [[("a", Value.vint 1)]] :=
  ⟨by decide, (value_pipeline_order initQ []).2.2.2.2.2.2 [[]]
    [[("a", Value.vint 1)]] (by decide)⟩

/-- C3: with an empty predicate (every group empty) `value()` on an
otherwise unconfigured state returns every record unchanged, while
`update` and `delete` leave the collection completely unchanged. -/
theorem empty_predicate_read_write (gs : List (List Condition)) (u : Rec)
    (data : List Rec) (h : ∀ g ∈ gs, g = []) :
    valueFn { initQ with conditionGroups := gs } data = data
    ∧ updateData gs u data = data
    ∧ deleteData gs data = data := by
  have hc : hasConditions gs = false := by
    simp only [hasConditions, List.any_eq_false]
    intro g hg
    simp [h g hg]
  have hm : ∀ it, matchesGroups gs it = false := by
    intro it
    simp only [matchesGroups, List.any_eq_false]
    intro g hg
    simp [h g hg]
  refine ⟨?_, ?_, ?_⟩
  · simp [valueFn, initQ, hc]
  · simp [updateData, hm]
  · simp [deleteData, hm]

theorem empty_predicate_read_write_witness :
    (∀ g ∈ ([[], []] : List (List Condition)), g = [])
    ∧ valueFn { initQ with conditionGroups := [[], []] } [[("a", Value.vint 1)]]
        = [[("a", Value.vint 1)]]
    ∧ updateData [[], []] [("a", Value.vint 2)] [[("a", Value.vint 1)]]
        = [[("a", Value.vint 1)]]
    ∧ deleteData [[], []] [[("a", Value.vint 1)]] = [[("a", Value.vint 1)]] :=
  ⟨by decide,
    (empty_predicate_read_write [[], []] [("a", Value.vint 2)]
      [[("a", Value.vint 1)]] (by decide)).1,
    (empty_predicate_read_write [[], []] [("a", Value.vint 2)]
      [[("a", Value.vint 1)]] (by decide)).2.1,
    (empty_predicate_read_write [[], []] [("a", Value.vint 2)]
      [[("a", Value.vint 1)]] (by decide)).2.2⟩

/-- C5: `orWhere` appends a fresh singleton condition group, except in
the initial empty state (exactly one group, which is empty), where it
seeds that existing group with the condition instead. -/
theorem orWhere_group_rule (st : QState) (c : Condition) :
    (st.conditionGroups.length = 1 ∧ (st.conditionGroups.head?.getD []).length = 0 →
      (orWhereOp c st).conditionGroups = [[c]])
    ∧ (¬(st.conditionGroups.length = 1 ∧ (st.conditionGroups.head?.getD []).length = 0) →
      (orWhereOp c st).conditionGroups = st.conditionGroups ++ [[c]]) := by
  constructor
  · intro h
    have hc := h
    obtain ⟨h1, h2⟩ := h
    cases cg : st.conditionGroups with
    | nil => rw [cg] at h1; simp at h1
    | cons g tl =>
      cases tl with
      | nil =>
        rw [cg] at h2
        simp only [List.head?_cons, Option.getD_some] at h2
        have hg : g = [] := List.eq_nil_of_length_eq_zero h2
        rw [cg, hg] at hc
        simp [orWhereOp, whereOp, cg, hg, pushLast]
      | cons g2 tl2 => rw [cg] at h1; simp at h1
  · intro h
    rw [orWhereOp, if_neg h]

theorem orWhere_group_rule_witness :
    (orWhereOp ⟨"a", .eq, .prim (.vint 1)⟩ initQ).conditionGroups
        = [[⟨"a", .eq, .prim (.vint 1)⟩]]
    ∧ (orWhereOp ⟨"b", .eq, .prim (.vint 2)⟩
        (whereOp ⟨"a", .eq, .prim (.vint 1)⟩ initQ)).conditionGroups
        = [[⟨"a", .eq, .prim (.vint 1)⟩], [⟨"b", .eq, .prim (.vint 2)⟩]] := by
  constructor
  · exact (orWhere_group_rule initQ ⟨"a", .eq, .prim (.vint 1)⟩).1 (by decide)
  · exact (orWhere_group_rule (whereOp ⟨"a", .eq, .prim (.vint 1)⟩ initQ)
      ⟨"b", .eq, .prim (.vint 2)⟩).2 (by decide)

/-- C8: `limit` and `offset` reject a negative count synchronously with
the invalid-argument error, leaving the prior query state unchanged; a
non-negative count is stored without an error. -/
theorem limit_offset_validation (st : QState) (n : Int) :
    (n < 0 → limitRun n st = (st, some "Limit must be non-negative"))
    ∧ (0 ≤ n → limitRun n st = ({ st with limitCount := some n }, none))
    ∧ (n < 0 → offsetRun n st = (st, some "Offset must be non-negative"))
    ∧ (0 ≤ n → offsetRun n st = ({ st with offsetCount := n }, none)) := by
  refine ⟨fun h => ?_, fun h => ?_, fun h => ?_, fun h => ?_⟩
  · simp [limitRun, h]
  · simp [limitRun, not_lt.mpr h]
  · simp [offsetRun, h]
  · simp [offsetRun, not_lt.mpr h]

theorem limit_offset_validation_witness :
    limitRun (-1) initQ = (initQ, some "Limit must be non-negative")
    ∧ limitRun 3 initQ = ({ initQ with limitCount := some 3 }, none)
    ∧ offsetRun (-1) initQ = (initQ, some "Offset must be non-negative")
    ∧ offsetRun 2 initQ = ({ initQ with offsetCount := 2 }, none) :=
  ⟨(limit_offset_validation initQ (-1)).1 (by decide),
    (limit_offset_validation initQ 3).2.1 (by decide),
    (limit_offset_validation initQ (-1)).2.2.1 (by decide),
    (limit_offset_validation initQ 2).2.2.2 (by decide)⟩

/-- C9: the condition-group set always holds at least one group: it does
after construction and after reset, and every operation preserves
non-emptiness (the pure setters do not touch the groups at all; `update`
and `delete` reset them to the single empty group; `insert` leaves the
whole query state alone). -/
theorem groups_nonempty_invariant (st : QState) (c : Condition) (fs : List String)
    (k : String) (d : SortOption) (n : Int) (e : Engine) (s : Store)
    (rc : Rec ⊕ List Rec) (u : Rec) (h : st.conditionGroups ≠ []) :
    initQ.conditionGroups ≠ []
    ∧ (whereOp c st).conditionGroups ≠ []
    ∧ (orWhereOp c st).conditionGroups ≠ []
    ∧ (selectOp fs st).conditionGroups = st.conditionGroups
    ∧ (orderByOp k d st).conditionGroups = st.conditionGroups
    ∧ (limitRun n st).1.conditionGroups = st.conditionGroups
    ∧ (offsetRun n st).1.conditionGroups = st.conditionGroups
    ∧ (distinctOp k st).conditionGroups = st.conditionGroups
    ∧ (resetState st).conditionGroups ≠ []
    ∧ (insertE rc e s).1.st.conditionGroups = e.st.conditionGroups
    ∧ (updateE u e s).1.st.conditionGroups ≠ []
    ∧ (deleteE e s).1.st.conditionGroups ≠ [] := by
  refine ⟨by simp [initQ], pushLast_ne_nil c st.conditionGroups h, ?_, ?_, rfl, ?_, ?_,
    rfl, by simp [resetState], rfl, by simp [updateE, resetState],
    by simp [deleteE, resetState]⟩
  · by_cases hd : st.conditionGroups.length = 1 ∧
        (st.conditionGroups.head?.getD []).length = 0
    · rw [orWhereOp, if_pos hd]
      exact pushLast_ne_nil c st.conditionGroups h
    · rw [orWhereOp, if_neg hd]
      simp
  · by_cases hf : fs.length ≠ 0 <;> simp [selectOp, hf]
  · by_cases hn : n < 0 <;> simp [limitRun, hn]
  · by_cases hn : n < 0 <;> simp [offsetRun, hn]

theorem groups_nonempty_invariant_witness :
    initQ.conditionGroups ≠ []
    ∧ (whereOp ⟨"a", .eq, .prim (.vint 1)⟩ initQ).conditionGroups ≠ [] :=
  ⟨(groups_nonempty_invariant initQ ⟨"a", .eq, .prim (.vint 1)⟩ [] "k" .asc 0
      (mkEngine 0) ⟨[]⟩ (.inr []) [] (by decide)).1,
    (groups_nonempty_invariant initQ ⟨"a", .eq, .prim (.vint 1)⟩ [] "k" .asc 0
      (mkEngine 0) ⟨[]⟩ (.inr []) [] (by decide)).2.1⟩

theorem dedupLoop_filter_undef (k : String) :
    ∀ (data : List Rec) (seen : List Value),
      (dedupLoop k seen data).filter (fun r => decide (getField r k = Value.vundef))
        = if Value.vundef ∈ seen then []
          else (data.filter (fun r => decide (getField r k = Value.vundef))).take 1 := by
  intro data
  induction data with
  | nil =>
    intro seen
    by_cases h : Value.vundef ∈ seen <;> simp [dedupLoop, h]
  | cons item rest ih =>
    intro seen
    by_cases hv : getField item k ∈ seen
    · rw [dedupLoop, if_pos hv]
      by_cases hu : getField item k = Value.vundef
      · have hseen : Value.vundef ∈ seen := hu ▸ hv
        rw [ih seen, if_pos hseen, if_pos hseen]
      · rw [ih seen]
        by_cases hseen : Value.vundef ∈ seen
        · rw [if_pos hseen, if_pos hseen]
        · rw [if_neg hseen, if_neg hseen, List.filter_cons]
          simp [hu]
    · rw [dedupLoop, if_neg hv]
      by_cases hu : getField item k = Value.vundef
      · have hns : Value.vundef ∉ seen := hu ▸ hv
        have hmem : Value.vundef ∈ getField item k :: seen := by
          rw [hu]; exact List.mem_cons_self _ _
        have h1 : List.filter (fun r => decide (getField r k = Value.vundef))
            (item :: dedupLoop k (getField item k :: seen) rest)
            = item :: List.filter (fun r => decide (getField r k = Value.vundef))
                (dedupLoop k (getField item k :: seen) rest) := by
          simp [List.filter_cons, hu]
        rw [h1, ih (getField item k :: seen), if_pos hmem, if_neg hns,
          List.filter_cons]
        simp [hu]
      · have hiff : Value.vundef ∈ getField item k :: seen ↔ Value.vundef ∈ seen := by
          constructor
          · intro hc
            rcases List.mem_cons.mp hc with h1 | h2
            · exact absurd h1.symm hu
            · exact h2
          · intro hc
            exact List.mem_cons_of_mem _ hc
        have h1 : List.filter (fun r => decide (getField r k = Value.vundef))
            (item :: dedupLoop k (getField item k :: seen) rest)
            = List.filter (fun r => decide (getField r k = Value.vundef))
                (dedupLoop k (getField item k :: seen) rest) := by
          simp [List.filter_cons, hu]
        rw [h1, ih (getField item k :: seen)]
        by_cases hseen : Value.vundef ∈ seen
        · rw [if_pos (hiff.mpr hseen), if_pos hseen]
        · rw [if_neg (fun hc => hseen (hiff.mp hc)), if_neg hseen, List.filter_cons]
          simp [hu]

/-- C10: with a distinct field set, every record whose value at that
field is absent (`undefined`) shares one deduplication key: the distinct
stage keeps exactly the first such record in pipeline order. -/
theorem distinct_absent_field_single_key (k : String) (data : List Rec) :
    (distinctFilter k data).filter (fun r => decide (getField r k = Value.vundef))
      = (data.filter (fun r => decide (getField r k = Value.vundef))).take 1 := by
  simpa using dedupLoop_filter_undef k data []

theorem lookupF_assign_map (sel : Rec) (f g : String) (v : Value) :
    lookupF (sel.map fun p => if p.1 = f then (f, v) else p) g
      = if g = f then (if (lookupF sel f).isSome then some v else none)
        else lookupF sel g := by
  induction sel with
  | nil => by_cases hg : g = f <;> simp [lookupF, hg]
  | cons p rest ih =>
    obtain ⟨k, w⟩ := p
    simp only [List.map_cons]
    by_cases hk : k = f
    · subst hk
      have hhead : (if (k, w).1 = k then (k, v) else (k, w)) = (k, v) := by simp
      rw [hhead]
      by_cases hg : g = k
      · simp [lookupF, hg]
      · simp [lookupF, hg, ih]
    · have hhead : (if (k, w).1 = f then (f, v) else (k, w)) = (k, w) := by simp [hk]
      rw [hhead]
      by_cases hg : g = k
      · have hgf : g ≠ f := fun hgf => hk (by rw [← hg, hgf])
        simp [lookupF, hg, hgf, hk]
      · simp [lookupF, hg, hk, Ne.symm hk, ih]

theorem lookupF_append_right (sel : Rec) (f g : String) (v : Value)
    (h : lookupF sel f = none) :
    lookupF (sel ++ [(f, v)]) g = if g = f then some v else lookupF sel g := by
  induction sel with
  | nil => by_cases hg : g = f <;> simp [lookupF, hg]
  | cons p rest ih =>
    obtain ⟨k, w⟩ := p
    have hk : f ≠ k := by
      intro hfk
      rw [lookupF, if_pos hfk] at h
      exact Option.noConfusion h
    have hrest : lookupF rest f = none := by
      rwa [lookupF, if_neg hk] at h
    by_cases hg : g = k
    · have hgf : g ≠ f := fun hgf => hk (by rw [← hgf, hg])
      simp [lookupF, hg, hgf, Ne.symm hk]
    · simp only [List.cons_append, lookupF, if_neg hg]
      exact ih hrest

theorem lookupF_assignField (sel : Rec) (f g : String) (v : Value) :
    lookupF (assignField sel f v) g = if g = f then some v else lookupF sel g := by
  by_cases hs : (lookupF sel f).isSome
  · rw [assignField, if_pos hs, lookupF_assign_map, if_pos hs]
  · rw [assignField, if_neg hs]
    exact lookupF_append_right sel f g v (Option.not_isSome_iff_eq_none.mp hs)

theorem lookupF_project_fold (item : Rec) (g : String) :
    ∀ (fs : List String) (sel : Rec),
      lookupF (fs.foldl (fun s f => assignField s f (getField item f)) sel) g
        = if g ∈ fs then some (getField item g) else lookupF sel g := by
  intro fs
  induction fs with
  | nil => intro sel; simp
  | cons f fs ih =>
    intro sel
    rw [List.foldl_cons, ih]
    by_cases hmem : g ∈ fs
    · simp [hmem]
    · rw [if_neg hmem, lookupF_assignField]
      by_cases hgf : g = f
      · subst hgf
        simp
      · simp [hgf, hmem]

theorem projection_counterexample_aux :
    valueFn { initQ with fields := ["x"] } [[("a", Value.vint 1)]]
      = [[("x", Value.vundef)]] := by decide

/-- C7 as stated is false: a listed field absent on the source record is
NOT omitted — `selected[field] = item[field]` creates the key with the
`undefined` value.  Concretely, selecting `x` from a record that lacks
`x` yields a record in which `x` is present (bound to `undefined`),
not the empty record the claim predicts. -/
theorem projection_absent_field_counterexample :
    lookupF ((valueFn { initQ with fields := ["x"] }
        [[("a", Value.vint 1)]]).headI) "x" = some Value.vundef
    ∧ valueFn { initQ with fields := ["x"] } [[("a", Value.vint 1)]]
        ≠ [([] : Rec)] := by decide

/-- C7, amended: with a non-empty projection spec, each result record
binds exactly the listed fields, a listed field absent on the source
record being included with the `undefined` value (not omitted, not
given any other default); with an empty projection spec, full records
are returned unchanged. -/
theorem projection_assigns_listed_fields (fields : List String) (item : Rec)
    (g : String) (d : List Rec) (h : fields ≠ []) :
    (lookupF (projectRec fields item) g
      = if g ∈ fields then some (getField item g) else none)
    ∧ (g ∈ fields → lookupF item g = none →
        lookupF (projectRec fields item) g = some Value.vundef)
    ∧ projectStage [] d = d
    ∧ projectStage fields d = d.map fun it => projectRec fields it := by
  refine ⟨?_, ?_, rfl, ?_⟩
  · rw [projectRec, lookupF_project_fold]
    by_cases hmem : g ∈ fields <;> simp [hmem, lookupF]
  · intro hmem habs
    rw [projectRec, lookupF_project_fold, if_pos hmem, getField, habs]
    rfl
  · rw [projectStage, if_neg (by simpa using h)]

theorem projection_assigns_listed_fields_witness :
    (["x", "a"] : List String) ≠ []
    ∧ lookupF (projectRec ["x", "a"] [("a", Value.vint 1)]) "x"
        = (if "x" ∈ ["x", "a"] then some (getField [("a", Value.vint 1)] "x") else none)
    ∧ projectStage ([] : List String) [[("a", Value.vint 1)]] = [[("a", Value.vint 1)]] :=
  ⟨by decide,
    (projection_assigns_listed_fields ["x", "a"] [("a", Value.vint 1)] "x"
      [[("a", Value.vint 1)]] (by decide)).1,
    (projection_assigns_listed_fields ["x", "a"] [("a", Value.vint 1)] "x"
      [[("a", Value.vint 1)]] (by decide)).2.2.1⟩

/-- C4 as stated is false for `update` and `delete`: both rebind
`this.data` to a freshly allocated array (`map`/`filter`), so a caller
retaining the constructor's array reference does NOT observe their
changes.  Concretely: one matching record, an update that changes it —
the caller's array (reference 0) still holds the old record, while the
engine's new array (reference 1) holds the changed one; likewise a
delete empties the engine's array but the caller still sees the record. -/
theorem update_aliasing_counterexample :
    (updateE [("age", Value.vint 31)]
        ⟨0, { initQ with conditionGroups := [[⟨"age", .eq, .prim (.vint 30)⟩]] }⟩
        ⟨[[[("age", Value.vint 30)]]]⟩).1.ref = 1
    ∧ (updateE [("age", Value.vint 31)]
        ⟨0, { initQ with conditionGroups := [[⟨"age", .eq, .prim (.vint 30)⟩]] }⟩
        ⟨[[[("age", Value.vint 30)]]]⟩).2.read 0
      = [[("age", Value.vint 30)]]
    ∧ (updateE [("age", Value.vint 31)]
        ⟨0, { initQ with conditionGroups := [[⟨"age", .eq, .prim (.vint 30)⟩]] }⟩
        ⟨[[[("age", Value.vint 30)]]]⟩).2.read 1
      = [[("age", Value.vint 31)]]
    ∧ (deleteE
        ⟨0, { initQ with conditionGroups := [[⟨"age", .eq, .prim (.vint 30)⟩]] }⟩
        ⟨[[[("age", Value.vint 30)]]]⟩).2.read 0
      = [[("age", Value.vint 30)]]
    ∧ deleteData [[⟨"age", .eq, .prim (.vint 30)⟩]] [[("age", Value.vint 30)]] = []
    ∧ ([[("age", Value.vint 30)]] : List Rec) ≠ [[("age", Value.vint 31)]] := by
  decide

/-- C4, amended: the engine holds the constructor's array by reference,
and `insert` mutates that array in place, so a caller's retained
reference observes inserted records; `update` and `delete` instead
build a fresh array and rebind the engine's internal reference to it,
leaving the caller's original array untouched (only the engine's own
view shows the new contents). -/
theorem mutation_aliasing (e : Engine) (s : Store) (rc : Rec ⊕ List Rec) (u : Rec)
    (h : e.ref < s.heap.length) :
    (insertE rc e s).2.read e.ref = s.read e.ref ++ insertList rc
    ∧ (insertE rc e s).1 = e
    ∧ (updateE u e s).2.read e.ref = s.read e.ref
    ∧ (updateE u e s).2.read (updateE u e s).1.ref
        = updateData e.st.conditionGroups u (s.read e.ref)
    ∧ (deleteE e s).2.read e.ref = s.read e.ref
    ∧ (deleteE e s).2.read (deleteE e s).1.ref
        = deleteData e.st.conditionGroups (s.read e.ref) := by
  refine ⟨?_, rfl, ?_, ?_, ?_, ?_⟩
  · simp [insertE, Store.read, List.getD_eq_getElem?_getD, List.getElem?_set_self,
      List.getElem?_eq_getElem h, h]
  · simp [updateE, Store.read, List.getD_eq_getElem?_getD, List.getElem?_append_left h]
  · simp [updateE, Store.read, List.getD_eq_getElem?_getD, List.getElem?_concat_length]
  · simp [deleteE, Store.read, List.getD_eq_getElem?_getD, List.getElem?_append_left h]
  · simp [deleteE, Store.read, List.getD_eq_getElem?_getD, List.getElem?_concat_length]

theorem mutation_aliasing_witness :
    ((0 : Nat) < (1 : Nat))
    ∧ (insertE (.inl [("b", Value.vint 2)])
        ⟨0, initQ⟩ ⟨[[[("a", Value.vint 1)]]]⟩).2.read 0
      = [[("a", Value.vint 1)], [("b", Value.vint 2)]] :=
  ⟨by decide,
    by
      have hh := (mutation_aliasing ⟨0, initQ⟩ ⟨[[[("a", Value.vint 1)]]]⟩
        (.inl [("b", Value.vint 2)]) [] (by decide)).1
      simpa using hh⟩

theorem jsInsert_perm (cmp : Rec → Rec → Int) (a : Rec) :
    ∀ l : List Rec, List.Perm (jsInsert cmp a l) (a :: l) := by
  intro l
  induction l with
  | nil => exact List.Perm.refl _
  | cons b bs ih =>
    rw [jsInsert]
    by_cases hc : cmp a b ≤ 0
    · rw [if_pos hc]
    · rw [if_neg hc]
      exact (List.Perm.cons b ih).trans (List.Perm.swap a b bs)

theorem jsSortList_perm (cmp : Rec → Rec → Int) :
    ∀ l : List Rec, List.Perm (jsSortList cmp l) l := by
  intro l
  induction l with
  | nil => exact List.Perm.refl _
  | cons a tl ih =>
    rw [jsSortList]
    exact (jsInsert_perm cmp a (jsSortList cmp tl)).trans (List.Perm.cons a ih)

theorem pairwise_jsInsert (cmp : Rec → Rec → Int) (R : Rec → Rec → Prop)
    (htr : Transitive R) :
    ∀ (l : List Rec) (a : Rec),
      (∀ x ∈ a :: l, ∀ y ∈ a :: l, cmp x y ≤ 0 → R x y) →
      (∀ x ∈ a :: l, ∀ y ∈ a :: l, ¬cmp x y ≤ 0 → R y x) →
      l.Pairwise R → (jsInsert cmp a l).Pairwise R := by
  intro l
  induction l with
  | nil =>
    intro a _ _ _
    simp [jsInsert]
  | cons b bs ih =>
    intro a hle hgt hp
    have hsub : ∀ z ∈ a :: bs, z ∈ a :: b :: bs := by
      intro z hz
      rcases List.mem_cons.mp hz with rfl | hz2
      · exact List.mem_cons_self _ _
      · exact List.mem_cons_of_mem _ (List.mem_cons_of_mem _ hz2)
    rcases List.pairwise_cons.mp hp with ⟨hb, hbs⟩
    rw [jsInsert]
    by_cases hc : cmp a b ≤ 0
    · rw [if_pos hc]
      have hab : R a b := hle a (List.mem_cons_self _ _)
        b (List.mem_cons_of_mem _ (List.mem_cons_self _ _)) hc
      refine List.pairwise_cons.mpr ⟨?_, hp⟩
      intro y hy
      rcases List.mem_cons.mp hy with rfl | hy2
      · exact hab
      · exact htr hab (hb y hy2)
    · rw [if_neg hc]
      refine List.pairwise_cons.mpr ⟨?_, ?_⟩
      · intro y hy
        rcases List.mem_cons.mp ((jsInsert_perm cmp a bs).mem_iff.mp hy) with hEq | hy2
        · rw [hEq]
          exact hgt a (List.mem_cons_self _ _)
            b (List.mem_cons_of_mem _ (List.mem_cons_self _ _)) hc
        · exact hb y hy2
      · refine ih a ?_ ?_ hbs
        · intro x hx y hy hxy
          exact hle x (hsub x hx) y (hsub y hy) hxy
        · intro x hx y hy hxy
          exact hgt x (hsub x hx) y (hsub y hy) hxy

theorem pairwise_jsSortList (cmp : Rec → Rec → Int) (R : Rec → Rec → Prop)
    (htr : Transitive R) :
    ∀ l : List Rec,
      (∀ x ∈ l, ∀ y ∈ l, cmp x y ≤ 0 → R x y) →
      (∀ x ∈ l, ∀ y ∈ l, ¬cmp x y ≤ 0 → R y x) →
      (jsSortList cmp l).Pairwise R := by
  intro l
  induction l with
  | nil =>
    intro _ _
    simp [jsSortList]
  | cons a tl ih =>
    intro hle hgt
    have hmem : ∀ z ∈ a :: jsSortList cmp tl, z ∈ a :: tl := by
      intro z hz
      rcases List.mem_cons.mp hz with rfl | hz2
      · exact List.mem_cons_self _ _
      · exact List.mem_cons_of_mem _ ((jsSortList_perm cmp tl).mem_iff.mp hz2)
    have hsubtl : ∀ z ∈ tl, z ∈ a :: tl := fun z hz => List.mem_cons_of_mem _ hz
    rw [jsSortList]
    refine pairwise_jsInsert cmp R htr _ a ?_ ?_ ?_
    · intro x hx y hy hxy
      exact hle x (hmem x hx) y (hmem y hy) hxy
    · intro x hx y hy hxy
      exact hgt x (hmem x hx) y (hmem y hy) hxy
    · refine ih ?_ ?_
      · intro x hx y hy hxy
        exact hle x (hsubtl x hx) y (hsubtl y hy) hxy
      · intro x hx y hy hxy
        exact hgt x (hsubtl x hx) y (hsubtl y hy) hxy

theorem sortCmp_null_left (key : String) (d : SortOption) (a b : Rec)
    (h : nullKey key a = true) : sortCmp key d a b = 1 := by
  have h2 : isNullish (getField a key) = true := h
  simp [sortCmp, h2]

theorem sortCmp_null_right (key : String) (d : SortOption) (a b : Rec)
    (h1 : nullKey key a = false) (h2 : nullKey key b = true) :
    sortCmp key d a b = -1 := by
  have g1 : isNullish (getField a key) = false := h1
  have g2 : isNullish (getField b key) = true := h2
  simp [sortCmp, g1, g2]

theorem sortCmp_asc_int (key : String) (a b : Rec) (m n : Int)
    (hva : getField a key = .vint m) (hvb : getField b key = .vint n) :
    sortCmp key .asc a b = if m = n then 0 else if m < n then -1 else 1 := by
  by_cases h : m = n
  · simp [sortCmp, hva, hvb, isNullish, h]
  · by_cases hlt : m < n
    · simp [sortCmp, hva, hvb, isNullish, h, hlt, jsLtB, jsCmpLt, toNumber]
    · simp [sortCmp, hva, hvb, isNullish, h, hlt, jsLtB, jsCmpLt, toNumber]

theorem sortCmp_desc_int (key : String) (a b : Rec) (m n : Int)
    (hva : getField a key = .vint m) (hvb : getField b key = .vint n) :
    sortCmp key .desc a b = if m = n then 0 else if m < n then 1 else -1 := by
  by_cases h : m = n
  · simp [sortCmp, hva, hvb, isNullish, h]
  · by_cases hlt : m < n
    · simp [sortCmp, hva, hvb, isNullish, h, hlt, jsLtB, jsCmpLt, toNumber]
    · simp [sortCmp, hva, hvb, isNullish, h, hlt, jsLtB, jsCmpLt, toNumber]

theorem int_of_nonnull (key : String) (a : Rec) (ha : IntOrNull key a)
    (hna : nullKey key a = false) : getField a key = .vint (kvInt key a) := by
  rcases hv : getField a key with _ | _ | n | s | bb
  · rw [nullKey, hv] at hna; simp [isNullish] at hna
  · rw [nullKey, hv] at hna; simp [isNullish] at hna
  · simp [kvInt, hv]
  · rw [IntOrNull] at ha; simp [intOrNullB, hv] at ha
  · rw [IntOrNull] at ha; simp [intOrNullB, hv] at ha

theorem nullKey_false_of_ne (key : String) (a : Rec) (h : ¬nullKey key a = true) :
    nullKey key a = false := by
  simpa using h

theorem sortCmp_le_Rnull (key : String) (d : SortOption) (a b : Rec)
    (h : sortCmp key d a b ≤ 0) : Rnull key a b := by
  by_cases hna : nullKey key a = true
  · rw [sortCmp_null_left key d a b hna] at h
    norm_num at h
  · exact Or.inl (nullKey_false_of_ne key a hna)

theorem sortCmp_gt_Rnull (key : String) (d : SortOption) (a b : Rec)
    (h : ¬sortCmp key d a b ≤ 0) : Rnull key b a := by
  by_cases hna : nullKey key a = true
  · exact Or.inr hna
  · by_cases hnb : nullKey key b = true
    · rw [sortCmp_null_right key d a b (nullKey_false_of_ne key a hna) hnb] at h
      norm_num at h
    · exact Or.inl (nullKey_false_of_ne key b hnb)

theorem Rnull_trans (key : String) : Transitive (Rnull key) := by
  intro a b c hab hbc
  rcases hab with h1 | h2
  · exact Or.inl h1
  · rcases hbc with h3 | h4
    · rw [h2] at h3
      exact absurd h3 (by simp)
    · exact Or.inr h4

theorem Rasc_trans (key : String) : Transitive (Rasc key) := by
  intro a b c hab hbc
  rcases hab with ⟨ha, hb⟩ | ⟨ha, hb⟩ | ⟨ha, hb, hle⟩
  · rcases hbc with ⟨hb2, hc⟩ | ⟨hb2, hc⟩ | ⟨hb2, hc, hle2⟩
    · rw [hb] at hb2; simp at hb2
    · exact Or.inl ⟨ha, hc⟩
    · rw [hb] at hb2; simp at hb2
  · rcases hbc with ⟨hb2, hc⟩ | ⟨hb2, hc⟩ | ⟨hb2, hc, hle2⟩
    · rw [hb] at hb2; simp at hb2
    · exact Or.inr (Or.inl ⟨ha, hc⟩)
    · rw [hb] at hb2; simp at hb2
  · rcases hbc with ⟨hb2, hc⟩ | ⟨hb2, hc⟩ | ⟨hb2, hc, hle2⟩
    · exact Or.inl ⟨ha, hc⟩
    · rw [hb2] at hb; simp at hb
    · exact Or.inr (Or.inr ⟨ha, hc, le_trans hle hle2⟩)

theorem Rdesc_trans (key : String) : Transitive (Rdesc key) := by
  intro a b c hab hbc
  rcases hab with ⟨ha, hb⟩ | ⟨ha, hb⟩ | ⟨ha, hb, hle⟩
  · rcases hbc with ⟨hb2, hc⟩ | ⟨hb2, hc⟩ | ⟨hb2, hc, hle2⟩
    · rw [hb] at hb2; simp at hb2
    · exact Or.inl ⟨ha, hc⟩
    · rw [hb] at hb2; simp at hb2
  · rcases hbc with ⟨hb2, hc⟩ | ⟨hb2, hc⟩ | ⟨hb2, hc, hle2⟩
    · rw [hb] at hb2; simp at hb2
    · exact Or.inr (Or.inl ⟨ha, hc⟩)
    · rw [hb] at hb2; simp at hb2
  · rcases hbc with ⟨hb2, hc⟩ | ⟨hb2, hc⟩ | ⟨hb2, hc, hle2⟩
    · exact Or.inl ⟨ha, hc⟩
    · rw [hb2] at hb; simp at hb
    · exact Or.inr (Or.inr ⟨ha, hc, le_trans hle2 hle⟩)

theorem sortCmp_le_Rasc (key : String) (a b : Rec) (ha : IntOrNull key a)
    (hb : IntOrNull key b) (h : sortCmp key .asc a b ≤ 0) : Rasc key a b := by
  by_cases hna : nullKey key a = true
  · rw [sortCmp_null_left key .asc a b hna] at h
    norm_num at h
  · have hna2 := nullKey_false_of_ne key a hna
    by_cases hnb : nullKey key b = true
    · exact Or.inl ⟨hna2, hnb⟩
    · have hnb2 := nullKey_false_of_ne key b hnb
      rw [sortCmp_asc_int key a b (kvInt key a) (kvInt key b)
        (int_of_nonnull key a ha hna2) (int_of_nonnull key b hb hnb2)] at h
      refine Or.inr (Or.inr ⟨hna2, hnb2, ?_⟩)
      by_cases hmn : kvInt key a = kvInt key b
      · exact le_of_eq hmn
      · by_cases hlt : kvInt key a < kvInt key b
        · exact le_of_lt hlt
        · rw [if_neg hmn, if_neg hlt] at h
          norm_num at h

theorem sortCmp_gt_Rasc (key : String) (a b : Rec) (ha : IntOrNull key a)
    (hb : IntOrNull key b) (h : ¬sortCmp key .asc a b ≤ 0) : Rasc key b a := by
  by_cases hna : nullKey key a = true
  · by_cases hnb : nullKey key b = true
    · exact Or.inr (Or.inl ⟨hnb, hna⟩)
    · exact Or.inl ⟨nullKey_false_of_ne key b hnb, hna⟩
  · have hna2 := nullKey_false_of_ne key a hna
    by_cases hnb : nullKey key b = true
    · exact absurd (by rw [sortCmp_null_right key .asc a b hna2 hnb]; norm_num) h
    · have hnb2 := nullKey_false_of_ne key b hnb
      rw [sortCmp_asc_int key a b (kvInt key a) (kvInt key b)
        (int_of_nonnull key a ha hna2) (int_of_nonnull key b hb hnb2)] at h
      refine Or.inr (Or.inr ⟨hnb2, hna2, ?_⟩)
      by_cases hmn : kvInt key a = kvInt key b
      · rw [if_pos hmn] at h
        norm_num at h
      · by_cases hlt : kvInt key a < kvInt key b
        · rw [if_neg hmn, if_pos hlt] at h
          norm_num at h
        · exact le_of_lt (lt_of_le_of_ne (not_lt.mp hlt) (fun e => hmn e.symm))

theorem sortCmp_le_Rdesc (key : String) (a b : Rec) (ha : IntOrNull key a)
    (hb : IntOrNull key b) (h : sortCmp key .desc a b ≤ 0) : Rdesc key a b := by
  by_cases hna : nullKey key a = true
  · rw [sortCmp_null_left key .desc a b hna] at h
    norm_num at h
  · have hna2 := nullKey_false_of_ne key a hna
    by_cases hnb : nullKey key b = true
    · exact Or.inl ⟨hna2, hnb⟩
    · have hnb2 := nullKey_false_of_ne key b hnb
      rw [sortCmp_desc_int key a b (kvInt key a) (kvInt key b)
        (int_of_nonnull key a ha hna2) (int_of_nonnull key b hb hnb2)] at h
      refine Or.inr (Or.inr ⟨hna2, hnb2, ?_⟩)
      by_cases hmn : kvInt key a = kvInt key b
      · exact le_of_eq hmn.symm
      · by_cases hlt : kvInt key a < kvInt key b
        · rw [if_neg hmn, if_pos hlt] at h
          norm_num at h
        · exact le_of_lt (lt_of_le_of_ne (not_lt.mp hlt) (fun e => hmn e.symm))

theorem sortCmp_gt_Rdesc (key : String) (a b : Rec) (ha : IntOrNull key a)
    (hb : IntOrNull key b) (h : ¬sortCmp key .desc a b ≤ 0) : Rdesc key b a := by
  by_cases hna : nullKey key a = true
  · by_cases hnb : nullKey key b = true
    · exact Or.inr (Or.inl ⟨hnb, hna⟩)
    · exact Or.inl ⟨nullKey_false_of_ne key b hnb, hna⟩
  · have hna2 := nullKey_false_of_ne key a hna
    by_cases hnb : nullKey key b = true
    · exact absurd (by rw [sortCmp_null_right key .desc a b hna2 hnb]; norm_num) h
    · have hnb2 := nullKey_false_of_ne key b hnb
      rw [sortCmp_desc_int key a b (kvInt key a) (kvInt key b)
        (int_of_nonnull key a ha hna2) (int_of_nonnull key b hb hnb2)] at h
      refine Or.inr (Or.inr ⟨hnb2, hna2, ?_⟩)
      by_cases hmn : kvInt key a = kvInt key b
      · rw [if_pos hmn] at h
        norm_num at h
      · by_cases hlt : kvInt key a < kvInt key b
        · exact le_of_lt hlt
        · rw [if_neg hmn, if_neg hlt] at h
          norm_num at h

theorem trailing_of_pairwise (key : String) :
    ∀ l : List Rec, l.Pairwise (Rnull key) →
      l = l.filter (fun r => !nullKey key r) ++ l.filter (fun r => nullKey key r) := by
  intro l
  induction l with
  | nil => simp
  | cons a tl ih =>
    intro hp
    rcases List.pairwise_cons.mp hp with ⟨ha, htl⟩
    by_cases hna : nullKey key a = true
    · have hall : ∀ r ∈ tl, nullKey key r = true := by
        intro r hr
        rcases ha r hr with h1 | h2
        · rw [hna] at h1
          exact absurd h1 (by simp)
        · exact h2
      have hf1 : tl.filter (fun r => !nullKey key r) = [] := by
        rw [List.filter_eq_nil_iff]
        intro r hr
        simp [hall r hr]
      have hf2 : tl.filter (fun r => nullKey key r) = tl := by
        rw [List.filter_eq_self]
        intro r hr
        simp [hall r hr]
      simp [List.filter_cons, hna, hf1, hf2]
    · have hna2 := nullKey_false_of_ne key a hna
      have htail := ih htl
      have hstep : (a :: tl).filter (fun r => !nullKey key r)
          = a :: tl.filter (fun r => !nullKey key r) := by
        simp [List.filter_cons, hna2]
      have hstep2 : (a :: tl).filter (fun r => nullKey key r)
          = tl.filter (fun r => nullKey key r) := by
        simp [List.filter_cons, hna2]
      rw [hstep, hstep2, List.cons_append, ← htail]

theorem map_eq_of_perm_nodup {α β : Type} (f : α → β) :
    ∀ (l1 l2 : List α), List.Perm l1 l2 → l1.map f = l2.map f → (l1.map f).Nodup → l1 = l2 := by
  intro l1
  induction l1 with
  | nil =>
    intro l2 hperm _ _
    exact (hperm.symm.eq_nil).symm
  | cons a t1 ih =>
    intro l2 hperm hmap hnd
    cases l2 with
    | nil => exact absurd hperm.eq_nil (List.cons_ne_nil a t1)
    | cons b t2 =>
      simp only [List.map_cons] at hmap
      injection hmap with hfab hmaptl
      have hab : a = b := by
        have hmem : a ∈ b :: t2 := hperm.mem_iff.mp (List.mem_cons_self a t1)
        rcases List.mem_cons.mp hmem with rfl | hmem2
        · rfl
        · have hin : f a ∈ t2.map f := List.mem_map_of_mem f hmem2
          rw [hfab] at hin
          have hnd2 : (f b :: t2.map f).Nodup := by
            rw [List.map_cons, hfab, hmaptl] at hnd
            exact hnd
          exact absurd hin (List.nodup_cons.mp hnd2).1
      subst hab
      have hperm2 : List.Perm t1 t2 := hperm.cons_inv
      have hnd2 : (t1.map f).Nodup := by
        rw [List.map_cons] at hnd
        exact (List.nodup_cons.mp hnd).2
      rw [ih t2 hperm2 hmaptl hnd2]

/-- C6 as stated is false: two records tied on the sort field keep their
original relative order under BOTH directions (the comparator returns 0
and the sort is stable), so the descending result is not the exact
reverse of the ascending one. -/
theorem sort_tie_not_reversed :
    (sortFn (some ⟨"k", SortOption.desc⟩)
        [[("k", Value.vint 1), ("id", Value.vint 1)],
         [("k", Value.vint 1), ("id", Value.vint 2)]]).filter
        (fun r => !nullKey "k" r)
      ≠ ((sortFn (some ⟨"k", SortOption.asc⟩)
        [[("k", Value.vint 1), ("id", Value.vint 1)],
         [("k", Value.vint 1), ("id", Value.vint 2)]]).filter
        (fun r => !nullKey "k" r)).reverse := by
  decide

/-- C6, amended: when the sort-field values are all of one comparable
type (modelled: integers, or null/absent) and the non-null values are
pairwise distinct, ascending and descending sorts produce exactly
reversed relative order among the records with non-null sort-field
values; records with a null/absent sort-field value sort after all
non-null-valued records in both directions (that part needs neither
hypothesis restriction: it is proven here for the two sorts whenever the
value-type hypothesis holds, tied records being the only obstruction to
exact reversal). -/
theorem sort_asc_desc_reversal (key : String) (data : List Rec)
    (h1 : ∀ r ∈ data, IntOrNull key r)
    (h2 : ((data.filter fun r => !nullKey key r).map (kvInt key)).Nodup) :
    (sortFn (some ⟨key, SortOption.asc⟩) data).filter (fun r => !nullKey key r)
      = ((sortFn (some ⟨key, SortOption.desc⟩) data).filter
          (fun r => !nullKey key r)).reverse
    ∧ sortFn (some ⟨key, SortOption.asc⟩) data
        = (sortFn (some ⟨key, SortOption.asc⟩) data).filter (fun r => !nullKey key r)
          ++ (sortFn (some ⟨key, SortOption.asc⟩) data).filter
              (fun r => nullKey key r)
    ∧ sortFn (some ⟨key, SortOption.desc⟩) data
        = (sortFn (some ⟨key, SortOption.desc⟩) data).filter (fun r => !nullKey key r)
          ++ (sortFn (some ⟨key, SortOption.desc⟩) data).filter
              (fun r => nullKey key r) := by
  have hfA : sortFn (some ⟨key, SortOption.asc⟩) data
      = jsSortList (sortCmp key .asc) data := rfl
  have hfD : sortFn (some ⟨key, SortOption.desc⟩) data
      = jsSortList (sortCmp key .desc) data := rfl
  rw [hfA, hfD]
  have pA : List.Perm (jsSortList (sortCmp key .asc) data) data :=
    jsSortList_perm _ data
  have pD : List.Perm (jsSortList (sortCmp key .desc) data) data :=
    jsSortList_perm _ data
  have pwA : (jsSortList (sortCmp key .asc) data).Pairwise (Rasc key) := by
    refine pairwise_jsSortList _ _ (Rasc_trans key) data ?_ ?_
    · intro x hx y hy hxy
      exact sortCmp_le_Rasc key x y (h1 x hx) (h1 y hy) hxy
    · intro x hx y hy hxy
      exact sortCmp_gt_Rasc key x y (h1 x hx) (h1 y hy) hxy
  have pwD : (jsSortList (sortCmp key .desc) data).Pairwise (Rdesc key) := by
    refine pairwise_jsSortList _ _ (Rdesc_trans key) data ?_ ?_
    · intro x hx y hy hxy
      exact sortCmp_le_Rdesc key x y (h1 x hx) (h1 y hy) hxy
    · intro x hx y hy hxy
      exact sortCmp_gt_Rdesc key x y (h1 x hx) (h1 y hy) hxy
  have pwNA : (jsSortList (sortCmp key .asc) data).Pairwise (Rnull key) := by
    refine pairwise_jsSortList _ _ (Rnull_trans key) data ?_ ?_
    · intro x _ y _ hxy
      exact sortCmp_le_Rnull key .asc x y hxy
    · intro x _ y _ hxy
      exact sortCmp_gt_Rnull key .asc x y hxy
  have pwND : (jsSortList (sortCmp key .desc) data).Pairwise (Rnull key) := by
    refine pairwise_jsSortList _ _ (Rnull_trans key) data ?_ ?_
    · intro x _ y _ hxy
      exact sortCmp_le_Rnull key .desc x y hxy
    · intro x _ y _ hxy
      exact sortCmp_gt_Rnull key .desc x y hxy
  have trailA := trailing_of_pairwise key _ pwNA
  have trailD := trailing_of_pairwise key _ pwND
  refine ⟨?_, trailA, trailD⟩
  have hmemfalse : ∀ (l : List Rec) (r : Rec),
      r ∈ l.filter (fun x => !nullKey key x) → nullKey key r = false := by
    intro l r hr
    have := (List.mem_filter.mp hr).2
    simpa using this
  have pwA2 : ((jsSortList (sortCmp key .asc) data).filter
      (fun r => !nullKey key r)).Pairwise
      (fun a b => kvInt key a ≤ kvInt key b) := by
    have hf := pwA.filter (fun r => !nullKey key r)
    refine hf.imp_of_mem ?_
    intro a b hma hmb hR
    have hna := hmemfalse _ a hma
    have hnb := hmemfalse _ b hmb
    rcases hR with ⟨g1, g2⟩ | ⟨g1, g2⟩ | ⟨_, _, g3⟩
    · rw [hnb] at g2; simp at g2
    · rw [hna] at g1; simp at g1
    · exact g3
  have pwD2 : ((jsSortList (sortCmp key .desc) data).filter
      (fun r => !nullKey key r)).Pairwise
      (fun a b => kvInt key b ≤ kvInt key a) := by
    have hf := pwD.filter (fun r => !nullKey key r)
    refine hf.imp_of_mem ?_
    intro a b hma hmb hR
    have hna := hmemfalse _ a hma
    have hnb := hmemfalse _ b hmb
    rcases hR with ⟨g1, g2⟩ | ⟨g1, g2⟩ | ⟨_, _, g3⟩
    · rw [hnb] at g2; simp at g2
    · rw [hna] at g1; simp at g1
    · exact g3
  have sA : (((jsSortList (sortCmp key .asc) data).filter
      (fun r => !nullKey key r)).map (kvInt key)).Pairwise
      (fun a b => a ≤ b) := List.pairwise_map.mpr pwA2
  have sD : ((((jsSortList (sortCmp key .desc) data).filter
      (fun r => !nullKey key r)).map (kvInt key)).reverse).Pairwise
      (fun a b => a ≤ b) := by
    rw [List.pairwise_reverse]
    exact List.pairwise_map.mpr pwD2
  have permNA : List.Perm ((jsSortList (sortCmp key .asc) data).filter
      (fun r => !nullKey key r)) (data.filter fun r => !nullKey key r) :=
    pA.filter _
  have permND : List.Perm ((jsSortList (sortCmp key .desc) data).filter
      (fun r => !nullKey key r)) (data.filter fun r => !nullKey key r) :=
    pD.filter _
  have permRecs : List.Perm ((jsSortList (sortCmp key .asc) data).filter
      (fun r => !nullKey key r))
      (((jsSortList (sortCmp key .desc) data).filter
        (fun r => !nullKey key r)).reverse) :=
    permNA.trans (permND.symm.trans (List.reverse_perm _).symm)
  have permVals := permRecs.map (kvInt key)
  haveI : IsAntisymm Int (fun a b => a ≤ b) := ⟨fun _ _ h h2 => le_antisymm h h2⟩
  have hvals : (((jsSortList (sortCmp key .asc) data).filter
      (fun r => !nullKey key r)).map (kvInt key))
      = ((((jsSortList (sortCmp key .desc) data).filter
          (fun r => !nullKey key r)).reverse).map (kvInt key)) := by
    refine List.eq_of_perm_of_sorted permVals sA ?_
    rw [List.map_reverse]
    exact sD
  have hnodA : ((((jsSortList (sortCmp key .asc) data).filter
      (fun r => !nullKey key r)).map (kvInt key))).Nodup :=
    ((permNA.map (kvInt key)).nodup_iff).mpr h2
  exact map_eq_of_perm_nodup (kvInt key) _ _ permRecs hvals hnodA

theorem sort_asc_desc_reversal_witness :
    (∀ r ∈ [[("k", Value.vint 2)], [("k", Value.vint 1)], [("n", Value.vint 5)]],
      IntOrNull "k" r)
    ∧ ((([[("k", Value.vint 2)], [("k", Value.vint 1)],
        [("n", Value.vint 5)]].filter fun r => !nullKey "k" r)).map
        (kvInt "k")).Nodup
    ∧ (sortFn (some ⟨"k", SortOption.asc⟩)
        [[("k", Value.vint 2)], [("k", Value.vint 1)],
         [("n", Value.vint 5)]]).filter (fun r => !nullKey "k" r)
      = ((sortFn (some ⟨"k", SortOption.desc⟩)
          [[("k", Value.vint 2)], [("k", Value.vint 1)],
           [("n", Value.vint 5)]]).filter (fun r => !nullKey "k" r)).reverse :=
  ⟨by simp only [IntOrNull]; decide, by decide,
    (sort_asc_desc_reversal "k"
      [[("k", Value.vint 2)], [("k", Value.vint 1)], [("n", Value.vint 5)]]
      (by simp only [IntOrNull]; decide) (by decide)).1⟩

end ArrayQL
